import Mathlib

/-!
Verification of the rectangle deduplication, region materialization and text
normalization stages of `recognizer.cpp` (class `recognizer::Recognizer`).

The C++ data types are embedded shallowly:

* `cv::Rect` (a `cv::Rect_<int>`) becomes the structure `Rect` with `Int`
  fields `x`, `y`, `width`, `height`; `cv::Point` becomes `Pt`.
* `cv::Rect_::contains(pt)` is the half-open test
  `x ≤ pt.x < x + width ∧ y ≤ pt.y < y + height` (`Rect.containsPt`).
* `operator&` on rectangles is `rect_and`, returning the all-zero rectangle
  when the computed intersection has non-positive width or height,
  exactly as OpenCV's `Rect_ operator&=` does.
* `std::vector<cv::Rect>` (`BoxesGroups`) becomes `List Rect`; erasing during
  iteration is captured by the recursive scan functions below.
* `std::string` becomes `List Char`.

The iterator loops of `Recognizer::remove_dup` are translated to structurally
recursive functions (`pass1Go`, `pass2Go`) driven by a fuel argument that is
provably sufficient, so that all definitions evaluate by kernel reduction.
-/

/-- Embedding of `cv::Point`: integer coordinates. -/
structure Pt where
  x : Int
  y : Int
deriving DecidableEq, Repr

/-- Embedding of `cv::Rect`: integer top-left corner plus integer width and height. -/
structure Rect where
  x : Int
  y : Int
  width : Int
  height : Int
deriving DecidableEq, Repr

/-- The `cv::Rect_::tl()` accessor: the top-left corner. -/
def Rect.tl (r : Rect) : Pt := ⟨r.x, r.y⟩

/-- The `cv::Rect_::br()` accessor: the bottom-right corner `(x + width, y + height)`. -/
def Rect.br (r : Rect) : Pt := ⟨r.x + r.width, r.y + r.height⟩

/-- The `cv::Rect_::area()` accessor: `width * height`. -/
def Rect.area (r : Rect) : Int := r.width * r.height

/-- The `cv::Rect_::contains(pt)` test: the half-open membership test
`x <= pt.x && pt.x < x + width && y <= pt.y && pt.y < y + height`. -/
def Rect.containsPt (r : Rect) (p : Pt) : Prop :=
  r.x ≤ p.x ∧ p.x < r.x + r.width ∧ r.y ≤ p.y ∧ p.y < r.y + r.height

instance (r : Rect) (p : Pt) : Decidable (r.containsPt p) :=
  inferInstanceAs (Decidable (r.x ≤ p.x ∧ p.x < r.x + r.width ∧ r.y ≤ p.y ∧
    p.y < r.y + r.height))

/-- The containment test used by `remove_dup`:
`a.contains(b.tl()) && a.contains(b.br())`. -/
def containsRect (a b : Rect) : Prop :=
  a.containsPt b.tl ∧ a.containsPt b.br

instance (a b : Rect) : Decidable (containsRect a b) :=
  inferInstanceAs (Decidable (a.containsPt b.tl ∧ a.containsPt b.br))

/-- OpenCV `operator&` on rectangles: intersection, or the all-zero rectangle
when the computed width or height is non-positive. -/
def rect_and (a b : Rect) : Rect :=
  let x1 := max a.x b.x
  let y1 := max a.y b.y
  let w := min (a.x + a.width) (b.x + b.width) - x1
  let h := min (a.y + a.height) (b.y + b.height) - y1
  if w ≤ 0 ∨ h ≤ 0 then ⟨0, 0, 0, 0⟩ else ⟨x1, y1, w, h⟩

/-- Inner loop of the first (containment) pass of `Recognizer::remove_dup`,
scanning the elements after the outer rectangle `o`:

* if `o` contains the inner element it is erased and the scan continues;
* if the inner element contains `o`, the outer element is to be erased and
  the scan breaks: the function returns the remaining tail (the survivors
  scanned so far, then the containing element and the unscanned elements)
  together with the flag `true`;
* otherwise the inner cursor advances.

The returned flag records whether the outer element was erased. -/
def pass1Inner (o : Rect) : List Rect → List Rect × Bool
  | [] => ([], false)
  | b :: rest =>
    if containsRect o b then
      pass1Inner o rest
    else if containsRect b o then
      (b :: rest, true)
    else
      let r := pass1Inner o rest
      (b :: r.1, r.2)

/-- Outer loop of the containment pass, with fuel.  After the outer element is
erased (`break` in the source), the `++outer` of the `for` statement still
runs, so the element now occupying the erased slot is emitted without ever
serving as an outer element. -/
def pass1Go : Nat → List Rect → List Rect
  | 0, l => l
  | _ + 1, [] => []
  | f + 1, o :: rest =>
    let r := pass1Inner o rest
    if r.2 then
      match r.1 with
      | [] => []
      | h :: t => h :: pass1Go f t
    else o :: pass1Go f r.1

/-- First pass of `Recognizer::remove_dup` (lines 148-170). -/
def pass1 (l : List Rect) : List Rect := pass1Go l.length l

/-- Inner loop of the second (overlap) pass of `Recognizer::remove_dup`,
scanning the elements after the outer rectangle `o`:

* if `(inner & outer).area() != 0` and the outer area is strictly larger,
  the inner element is erased and the scan continues;
* if `(inner & outer).area() != 0` otherwise (smaller or equal outer area),
  the outer element is to be erased; the function returns the remaining tail
  and the flag `true`;
* otherwise the inner cursor advances. -/
def pass2Inner (o : Rect) : List Rect → List Rect × Bool
  | [] => ([], false)
  | b :: rest =>
    if (rect_and b o).area ≠ 0 then
      if o.area > b.area then
        pass2Inner o rest
      else
        (b :: rest, true)
    else
      let r := pass2Inner o rest
      (b :: r.1, r.2)

/-- Outer loop of the overlap pass, with fuel.  When the outer element is
erased the source sets `outer_iter` to the next element and restarts the inner
scan from its successor, which is exactly a recursive call on the remaining
tail; when the inner scan completes, `++outer_iter` advances. -/
def pass2Go : Nat → List Rect → List Rect
  | 0, l => l
  | _ + 1, [] => []
  | f + 1, o :: rest =>
    let r := pass2Inner o rest
    if r.2 then pass2Go f r.1
    else o :: pass2Go f r.1

/-- Second pass of `Recognizer::remove_dup` (lines 172-196). -/
def pass2 (l : List Rect) : List Rect := pass2Go l.length l

/-- Embedding of `Recognizer::remove_dup`: containment pass followed by overlap pass. -/
def remove_dup (l : List Rect) : List Rect := pass2 (pass1 l)

/-- Containment pass as the specification describes it: "Else if B fully
contains A, remove A and restart the inner scan from A's new position (the
rectangle now occupying A's slot)" — i.e. after the outer element is erased,
the element now in its slot is itself used as the outer element of a fresh
inner scan.  This definition follows the spec's words; it is compared with
`pass1`, which is translated from the source. -/
def pass1SpecGo : Nat → List Rect → List Rect
  | 0, l => l
  | _ + 1, [] => []
  | f + 1, o :: rest =>
    let r := pass1Inner o rest
    if r.2 then pass1SpecGo f r.1
    else o :: pass1SpecGo f r.1

/-- The spec's version of the containment pass (see `pass1SpecGo`). -/
def pass1Spec (l : List Rect) : List Rect := pass1SpecGo l.length l

/-! ### Structural lemmas about the two passes -/

theorem pass1Inner_sublist (o : Rect) : ∀ l : List Rect, List.Sublist (pass1Inner o l).1 l := by
  intro l
  induction l with
  | nil => simp [pass1Inner]
  | cons b rest ih =>
    by_cases h1 : containsRect o b
    · simp only [pass1Inner, if_pos h1]
      exact ih.trans (List.sublist_cons_self b rest)
    · by_cases h2 : containsRect b o
      · simp [pass1Inner, if_neg h1, if_pos h2]
      · simp only [pass1Inner, if_neg h1, if_neg h2]
        exact ih.cons₂ b

theorem pass2Inner_sublist (o : Rect) : ∀ l : List Rect, List.Sublist (pass2Inner o l).1 l := by
  intro l
  induction l with
  | nil => simp [pass2Inner]
  | cons b rest ih =>
    by_cases h1 : (rect_and b o).area ≠ 0
    · by_cases h2 : o.area > b.area
      · simp only [pass2Inner, if_pos h1, if_pos h2]
        exact ih.trans (List.sublist_cons_self b rest)
      · simp [pass2Inner, if_pos h1, if_neg h2]
    · simp only [pass2Inner, if_neg h1]
      exact ih.cons₂ b

theorem pass1Inner_length (o : Rect) (l : List Rect) :
    (pass1Inner o l).1.length ≤ l.length :=
  (pass1Inner_sublist o l).length_le

theorem pass2Inner_length (o : Rect) (l : List Rect) :
    (pass2Inner o l).1.length ≤ l.length :=
  (pass2Inner_sublist o l).length_le

theorem pass1Go_nil (f : Nat) : pass1Go f [] = [] := by cases f <;> rfl

theorem pass2Go_nil (f : Nat) : pass2Go f [] = [] := by cases f <;> rfl

/-- Fuel irrelevance: any fuel at least the length of the list gives the same
result as any other. -/
theorem pass1Go_congr :
    ∀ (f g : Nat) (l : List Rect), l.length ≤ f → l.length ≤ g →
      pass1Go f l = pass1Go g l := by
  intro f
  induction f with
  | zero =>
    intro g l hf _
    have : l = [] := List.eq_nil_of_length_eq_zero (Nat.le_zero.mp hf)
    subst this
    simp [pass1Go_nil]
  | succ f ih =>
    intro g l hf hg
    cases l with
    | nil => simp [pass1Go_nil]
    | cons o rest =>
      cases g with
      | zero => exact absurd hg (by simp)
      | succ g =>
        simp only [List.length_cons, Nat.succ_le_succ_iff] at hf hg
        rcases hr : pass1Inner o rest with ⟨rest', flag⟩
        have hlen : rest'.length ≤ rest.length := by
          have := pass1Inner_length o rest
          rw [hr] at this
          exact this
        cases flag with
        | false =>
          have heq := ih g rest' (hlen.trans hf) (hlen.trans hg)
          simp [pass1Go, hr, heq]
        | true =>
          cases rest' with
          | nil => simp [pass1Go, hr]
          | cons h t =>
            have ht : t.length ≤ rest.length := by
              simp only [List.length_cons] at hlen
              omega
            have heq := ih g t (ht.trans hf) (ht.trans hg)
            simp [pass1Go, hr, heq]

theorem pass2Go_congr :
    ∀ (f g : Nat) (l : List Rect), l.length ≤ f → l.length ≤ g →
      pass2Go f l = pass2Go g l := by
  intro f
  induction f with
  | zero =>
    intro g l hf _
    have : l = [] := List.eq_nil_of_length_eq_zero (Nat.le_zero.mp hf)
    subst this
    simp [pass2Go_nil]
  | succ f ih =>
    intro g l hf hg
    cases l with
    | nil => simp [pass2Go_nil]
    | cons o rest =>
      cases g with
      | zero => exact absurd hg (by simp)
      | succ g =>
        simp only [List.length_cons, Nat.succ_le_succ_iff] at hf hg
        rcases hr : pass2Inner o rest with ⟨rest', flag⟩
        have hlen : rest'.length ≤ rest.length := by
          have := pass2Inner_length o rest
          rw [hr] at this
          exact this
        have heq := ih g rest' (hlen.trans hf) (hlen.trans hg)
        cases flag with
        | false => simp [pass2Go, hr, heq]
        | true => simp [pass2Go, hr, heq]

theorem pass1_nil : pass1 [] = [] := rfl

theorem pass2_nil : pass2 [] = [] := rfl

/-- Unfolding equation for `pass1` when the outer element survives its scan. -/
theorem pass1_cons_of_false {o : Rect} {rest rest' : List Rect}
    (h : pass1Inner o rest = (rest', false)) :
    pass1 (o :: rest) = o :: pass1 rest' := by
  have hlen : rest'.length ≤ rest.length := by
    have := pass1Inner_length o rest
    rw [h] at this
    exact this
  show pass1Go (rest.length + 1) (o :: rest) = _
  have heq := pass1Go_congr rest.length rest'.length rest' hlen le_rfl
  simp [pass1Go, h, heq, pass1]

/-- Unfolding equation for `pass1` when the outer element is erased: the
element `h'` now occupying its slot is emitted without a fresh inner scan. -/
theorem pass1_cons_of_true {o h' : Rect} {rest t : List Rect}
    (h : pass1Inner o rest = (h' :: t, true)) :
    pass1 (o :: rest) = h' :: pass1 t := by
  have hlen : t.length ≤ rest.length := by
    have := pass1Inner_length o rest
    rw [h] at this
    simp only [List.length_cons] at this
    omega
  show pass1Go (rest.length + 1) (o :: rest) = _
  have heq := pass1Go_congr rest.length t.length t hlen le_rfl
  simp [pass1Go, h, heq, pass1]

/-- Unfolding equation for `pass2` when the outer element survives its scan. -/
theorem pass2_cons_of_false {o : Rect} {rest rest' : List Rect}
    (h : pass2Inner o rest = (rest', false)) :
    pass2 (o :: rest) = o :: pass2 rest' := by
  have hlen : rest'.length ≤ rest.length := by
    have := pass2Inner_length o rest
    rw [h] at this
    exact this
  show pass2Go (rest.length + 1) (o :: rest) = _
  have heq := pass2Go_congr rest.length rest'.length rest' hlen le_rfl
  simp [pass2Go, h, heq, pass2]

/-- Unfolding equation for `pass2` when the outer element is erased: the scan
restarts with the element now occupying its slot as the new outer element. -/
theorem pass2_cons_of_true {o : Rect} {rest rest' : List Rect}
    (h : pass2Inner o rest = (rest', true)) :
    pass2 (o :: rest) = pass2 rest' := by
  have hlen : rest'.length ≤ rest.length := by
    have := pass2Inner_length o rest
    rw [h] at this
    exact this
  show pass2Go (rest.length + 1) (o :: rest) = _
  have heq := pass2Go_congr rest.length rest'.length rest' hlen le_rfl
  simp [pass2Go, h, heq, pass2]

/-- The function `pass1Inner` never reports the outer element erased with an empty tail:
the containing element is part of the returned tail. -/
theorem pass1Inner_true_ne_nil (o : Rect) :
    ∀ l l', pass1Inner o l = (l', true) → l' ≠ [] := by
  intro l
  induction l with
  | nil => intro l' h; simp [pass1Inner] at h
  | cons b rest ih =>
    intro l' h
    by_cases h1 : containsRect o b
    · simp only [pass1Inner, if_pos h1] at h
      exact ih l' h
    · by_cases h2 : containsRect b o
      · simp only [pass1Inner, if_neg h1, if_pos h2, Prod.mk.injEq] at h
        rw [← h.1]
        simp
      · simp only [pass1Inner, if_neg h1, if_neg h2, Prod.mk.injEq] at h
        rw [← h.1]
        simp

/-- Degenerate unfolding equation (the hypothesis is in fact impossible, by
`pass1Inner_true_ne_nil`). -/
theorem pass1_cons_of_true_nil {o : Rect} {rest : List Rect}
    (h : pass1Inner o rest = ([], true)) :
    pass1 (o :: rest) = [] := by
  show pass1Go (rest.length + 1) (o :: rest) = _
  simp [pass1Go, h]

theorem pass1_sublist (l : List Rect) : List.Sublist (pass1 l) l := by
  suffices h : ∀ n (l : List Rect), l.length ≤ n → List.Sublist (pass1 l) l from
    h l.length l le_rfl
  intro n
  induction n with
  | zero =>
    intro l hl
    have : l = [] := List.eq_nil_of_length_eq_zero (Nat.le_zero.mp hl)
    subst this
    simp [pass1_nil]
  | succ n ih =>
    intro l hl
    cases l with
    | nil => simp [pass1_nil]
    | cons o rest =>
      simp only [List.length_cons, Nat.succ_le_succ_iff] at hl
      rcases hr : pass1Inner o rest with ⟨rest', flag⟩
      have hsub : List.Sublist rest' rest := by
        have := pass1Inner_sublist o rest
        rw [hr] at this
        exact this
      cases flag with
      | false =>
        rw [pass1_cons_of_false hr]
        exact (((ih rest' (hsub.length_le.trans hl)).trans hsub).cons₂ o)
      | true =>
        cases rest' with
        | nil =>
          rw [pass1_cons_of_true_nil hr]
          exact List.nil_sublist _
        | cons h' t =>
          rw [pass1_cons_of_true hr]
          have ht : t.length ≤ n := by
            have := hsub.length_le
            simp only [List.length_cons] at this
            omega
          exact (((ih t ht).cons₂ h').trans hsub).cons o

theorem pass2_sublist (l : List Rect) : List.Sublist (pass2 l) l := by
  suffices h : ∀ n (l : List Rect), l.length ≤ n → List.Sublist (pass2 l) l from
    h l.length l le_rfl
  intro n
  induction n with
  | zero =>
    intro l hl
    have : l = [] := List.eq_nil_of_length_eq_zero (Nat.le_zero.mp hl)
    subst this
    simp [pass2_nil]
  | succ n ih =>
    intro l hl
    cases l with
    | nil => simp [pass2_nil]
    | cons o rest =>
      simp only [List.length_cons, Nat.succ_le_succ_iff] at hl
      rcases hr : pass2Inner o rest with ⟨rest', flag⟩
      have hsub : List.Sublist rest' rest := by
        have := pass2Inner_sublist o rest
        rw [hr] at this
        exact this
      cases flag with
      | false =>
        rw [pass2_cons_of_false hr]
        exact (((ih rest' (hsub.length_le.trans hl)).trans hsub).cons₂ o)
      | true =>
        rw [pass2_cons_of_true hr]
        exact ((ih rest' (hsub.length_le.trans hl)).trans hsub).cons o

theorem remove_dup_sublist (l : List Rect) : List.Sublist (remove_dup l) l :=
  (pass2_sublist (pass1 l)).trans (pass1_sublist l)

/-- When the inner scan of the overlap pass completes without erasing the
outer element, every survivor has zero intersection area with it. -/
theorem pass2Inner_false_mem (o : Rect) :
    ∀ l l', pass2Inner o l = (l', false) →
      ∀ b ∈ l', (rect_and b o).area = 0 := by
  intro l
  induction l with
  | nil =>
    intro l' h b hb
    simp only [pass2Inner, Prod.mk.injEq] at h
    rw [← h.1] at hb
    simp at hb
  | cons c rest ih =>
    intro l' h b hb
    by_cases h1 : (rect_and c o).area ≠ 0
    · by_cases h2 : o.area > c.area
      · simp only [pass2Inner, if_pos h1, if_pos h2] at h
        exact ih l' h b hb
      · simp only [pass2Inner, if_pos h1, if_neg h2, Prod.mk.injEq] at h
        exact absurd h.2 (by simp)
    · rcases hr : pass2Inner o rest with ⟨r1, r2⟩
      simp only [pass2Inner, if_neg h1, hr, Prod.mk.injEq] at h
      rw [← h.1] at hb
      rcases List.mem_cons.mp hb with hbc | hbr
      · rw [hbc]
        exact not_not.mp h1
      · exact ih r1 (by rw [hr, h.2]) b hbr

/-- After the overlap pass, all remaining ordered pairs have an intersection
of zero area (the relation is stated in the orientation of the source's test
`(*inner_iter & *outer_iter).area()`). -/
theorem pass2_pairwise (l : List Rect) :
    List.Pairwise (fun a b => (rect_and b a).area = 0) (pass2 l) := by
  suffices h : ∀ n (l : List Rect), l.length ≤ n →
      List.Pairwise (fun a b => (rect_and b a).area = 0) (pass2 l) from
    h l.length l le_rfl
  intro n
  induction n with
  | zero =>
    intro l hl
    have : l = [] := List.eq_nil_of_length_eq_zero (Nat.le_zero.mp hl)
    subst this
    simp [pass2_nil]
  | succ n ih =>
    intro l hl
    cases l with
    | nil => simp [pass2_nil]
    | cons o rest =>
      simp only [List.length_cons, Nat.succ_le_succ_iff] at hl
      rcases hr : pass2Inner o rest with ⟨rest', flag⟩
      have hsub : List.Sublist rest' rest := by
        have := pass2Inner_sublist o rest
        rw [hr] at this
        exact this
      cases flag with
      | true =>
        rw [pass2_cons_of_true hr]
        exact ih rest' (hsub.length_le.trans hl)
      | false =>
        rw [pass2_cons_of_false hr]
        refine List.Pairwise.cons ?_ (ih rest' (hsub.length_le.trans hl))
        intro b hb
        exact pass2Inner_false_mem o rest rest' hr b
          (List.Sublist.mem hb (pass2_sublist rest'))

/-! ### Geometric facts about containment and intersection -/

theorem rect_and_comm (a b : Rect) : rect_and a b = rect_and b a := by
  simp [rect_and, max_comm, min_comm]

/-- A rectangle whose two corners lie inside another (in the half-open sense
of `cv::Rect::contains`) has strictly smaller area. -/
theorem area_lt_of_contains {a b : Rect} (h : containsRect a b) :
    b.area < a.area := by
  obtain ⟨⟨h1, h2, h3, h4⟩, h5, h6, h7, h8⟩ := h
  simp only [Rect.tl, Rect.br] at h1 h2 h3 h4 h5 h6 h7 h8
  simp only [Rect.area]
  have hw1 : b.width < a.width := by linarith
  have hw2 : -a.width < b.width := by linarith
  have hh1 : b.height < a.height := by linarith
  have hh2 : -a.height < b.height := by linarith
  nlinarith [mul_pos (show (0:Int) < a.width - b.width by linarith)
      (show (0:Int) < a.height + b.height by linarith),
    mul_pos (show (0:Int) < a.width + b.width by linarith)
      (show (0:Int) < a.height - b.height by linarith)]

/-- A contained rectangle of positive width and height produces a positive
intersection area with its container. -/
theorem rect_and_area_ne_zero_of_contains {a b : Rect} (h : containsRect a b)
    (hw : 0 < b.width) (hh : 0 < b.height) : (rect_and a b).area ≠ 0 := by
  obtain ⟨⟨h1, h2, h3, h4⟩, h5, h6, h7, h8⟩ := h
  simp only [Rect.tl, Rect.br] at h1 h2 h3 h4 h5 h6 h7 h8
  simp only [rect_and]
  rw [max_eq_right h1, max_eq_right h3, min_eq_right h6.le, min_eq_right h8.le]
  have e1 : b.x + b.width - b.x = b.width := by ring
  have e2 : b.y + b.height - b.y = b.height := by ring
  rw [e1, e2]
  rw [if_neg (by push_neg; exact ⟨hw, hh⟩)]
  simp only [Rect.area]
  exact (mul_pos hw hh).ne'

/-! ### The passes are the identity on already-clean lists -/

theorem pass1Inner_eq_self (o : Rect) :
    ∀ l, (∀ b ∈ l, ¬ containsRect o b ∧ ¬ containsRect b o) →
      pass1Inner o l = (l, false) := by
  intro l
  induction l with
  | nil => intro _; rfl
  | cons b rest ih =>
    intro h
    have hb := h b (by simp)
    have hrest : ∀ c ∈ rest, ¬ containsRect o c ∧ ¬ containsRect c o :=
      fun c hc => h c (by simp [hc])
    simp [pass1Inner, if_neg hb.1, if_neg hb.2, ih hrest]

theorem pass2Inner_eq_self (o : Rect) :
    ∀ l, (∀ b ∈ l, (rect_and b o).area = 0) →
      pass2Inner o l = (l, false) := by
  intro l
  induction l with
  | nil => intro _; rfl
  | cons b rest ih =>
    intro h
    have hb := h b (by simp)
    have hrest : ∀ c ∈ rest, (rect_and c o).area = 0 :=
      fun c hc => h c (by simp [hc])
    simp [pass2Inner, hb, ih hrest]

theorem pass1_eq_self {l : List Rect}
    (h : List.Pairwise (fun a b => ¬ containsRect a b ∧ ¬ containsRect b a) l) :
    pass1 l = l := by
  induction l with
  | nil => exact pass1_nil
  | cons o rest ih =>
    rw [List.pairwise_cons] at h
    rw [pass1_cons_of_false (pass1Inner_eq_self o rest h.1), ih h.2]

theorem pass2_eq_self {l : List Rect}
    (h : List.Pairwise (fun a b => (rect_and b a).area = 0) l) :
    pass2 l = l := by
  induction l with
  | nil => exact pass2_nil
  | cons o rest ih =>
    rw [List.pairwise_cons] at h
    rw [pass2_cons_of_false (pass2Inner_eq_self o rest h.1), ih h.2]

/-! ### Claim C1 : equal-area tie-break of the overlap pass -/

/-- C1, counterexample.  Two overlapping rectangles of equal area, A first:
`remove_dup` keeps B (the second element), not A, because on equal areas
`outer_iter->area() > inner_iter->area()` is false and the `else` branch
erases the outer (earlier) element. -/
theorem remove_dup_equal_area_tie_counterexample :
    remove_dup [(⟨0,0,2,2⟩ : Rect), ⟨1,0,2,2⟩] = [⟨1,0,2,2⟩]
    ∧ (⟨1,0,2,2⟩ : Rect) ≠ ⟨0,0,2,2⟩
    ∧ Rect.area ⟨0,0,2,2⟩ = Rect.area ⟨1,0,2,2⟩
    ∧ (rect_and (⟨1,0,2,2⟩ : Rect) ⟨0,0,2,2⟩).area ≠ 0 := by decide

/-- C1, amended.  For two overlapping rectangles of equal area with A
preceding B, `remove_dup` removes the FIRST element A and the later
rectangle B survives. -/
theorem remove_dup_equal_area_tie_removes_first (a b : Rect)
    (hov : (rect_and b a).area ≠ 0) (harea : a.area = b.area) :
    remove_dup [a, b] = [b] := by
  have hnc1 : ¬ containsRect a b :=
    fun hc => absurd (area_lt_of_contains hc) (not_lt.mpr harea.le)
  have hnc2 : ¬ containsRect b a :=
    fun hc => absurd (area_lt_of_contains hc) (not_lt.mpr harea.ge)
  have h1 : pass1Inner a [b] = ([b], false) :=
    pass1Inner_eq_self a [b] (by simpa using ⟨hnc1, hnc2⟩)
  have hp1 : pass1 [a, b] = [a, b] := by
    rw [pass1_cons_of_false h1, pass1_cons_of_false (pass1Inner_eq_self b [] (by simp)),
      pass1_nil]
  have h2 : pass2Inner a [b] = ([b], true) := by
    have hle : ¬ a.area > b.area := not_lt.mpr harea.le
    simp [pass2Inner, if_pos hov, if_neg hle]
  show pass2 (pass1 [a, b]) = [b]
  rw [hp1, pass2_cons_of_true h2,
    pass2_cons_of_false (pass2Inner_eq_self b [] (by simp)), pass2_nil]

/-- C1, witness for the amended theorem at a concrete input. -/
theorem remove_dup_equal_area_tie_removes_first_witness :
    remove_dup [(⟨0,0,2,2⟩ : Rect), ⟨1,0,2,2⟩] = [⟨1,0,2,2⟩] :=
  remove_dup_equal_area_tie_removes_first ⟨0,0,2,2⟩ ⟨1,0,2,2⟩ (by decide) (by decide)

/-! ### Claim C2 : cursor repositioning after the outer element is erased -/

/-- C2, counterexample.  On `[A, B, P]` with `B ⊇ A` and `P` a zero-area
rectangle inside `B`, the source's containment pass leaves `P` in place
(the element moved into A's slot is skipped by the loop's `++outer`),
while the spec's restart-from-A's-slot variant removes it. -/
theorem pass1_restart_counterexample :
    pass1 [(⟨2,2,2,2⟩ : Rect), ⟨0,0,10,10⟩, ⟨5,5,0,0⟩] = [⟨0,0,10,10⟩, ⟨5,5,0,0⟩]
    ∧ pass1Spec [(⟨2,2,2,2⟩ : Rect), ⟨0,0,10,10⟩, ⟨5,5,0,0⟩] = [⟨0,0,10,10⟩]
    ∧ pass1 [(⟨2,2,2,2⟩ : Rect), ⟨0,0,10,10⟩, ⟨5,5,0,0⟩]
        ≠ pass1Spec [(⟨2,2,2,2⟩ : Rect), ⟨0,0,10,10⟩, ⟨5,5,0,0⟩] := by decide

/-- C2, amended.  When the inner scan erases the outer element A (flag
`true`, remaining tail `h' :: t`), the containment pass emits the rectangle
`h'` now occupying A's slot WITHOUT using it as the outer element of a fresh
inner scan, and continues with the elements after it: the `erase`/`break` is
followed by the `for` statement's `++outer`, which steps past `h'`. -/
theorem pass1_outer_erased_skips_slot (o h' : Rect) (rest t : List Rect)
    (h : pass1Inner o rest = (h' :: t, true)) :
    pass1 (o :: rest) = h' :: pass1 t :=
  pass1_cons_of_true h

/-- C2, witness for the amended theorem at a concrete input. -/
theorem pass1_outer_erased_skips_slot_witness :
    pass1 [(⟨2,2,2,2⟩ : Rect), ⟨0,0,10,10⟩, ⟨5,5,0,0⟩]
      = ⟨0,0,10,10⟩ :: pass1 [⟨5,5,0,0⟩] :=
  pass1_outer_erased_skips_slot ⟨2,2,2,2⟩ ⟨0,0,10,10⟩ [⟨0,0,10,10⟩, ⟨5,5,0,0⟩]
    [⟨5,5,0,0⟩] (by decide)

/-! ### Claim C3 : invariant of the deduplicated set -/

/-- C3, counterexample.  The output of `remove_dup` can contain a rectangle
fully contained in another: the zero-area rectangle `⟨5,5,0,0⟩` survives
inside `⟨0,0,10,10⟩` (its intersection area is zero, so the overlap pass
ignores it, and the containment pass skipped the pair). -/
theorem remove_dup_containment_counterexample :
    remove_dup [(⟨2,2,2,2⟩ : Rect), ⟨0,0,10,10⟩, ⟨5,5,0,0⟩]
      = [⟨0,0,10,10⟩, ⟨5,5,0,0⟩]
    ∧ containsRect ⟨0,0,10,10⟩ ⟨5,5,0,0⟩
    ∧ (⟨0,0,10,10⟩ : Rect) ≠ ⟨5,5,0,0⟩ := by decide

/-- C3, amended.  After `remove_dup`, every pair of remaining rectangles has
an intersection of zero area; consequently no rectangle of positive width
and height is fully contained in another.  (A zero-area rectangle may remain
contained in another, as the counterexample shows.) -/
theorem remove_dup_invariant (l : List Rect) :
    List.Pairwise (fun a b => (rect_and a b).area = 0
      ∧ ¬(containsRect a b ∧ 0 < b.width ∧ 0 < b.height)
      ∧ ¬(containsRect b a ∧ 0 < a.width ∧ 0 < a.height)) (remove_dup l) := by
  refine (pass2_pairwise (pass1 l)).imp ?_
  intro a b hab
  have hab' : (rect_and a b).area = 0 := by rw [rect_and_comm]; exact hab
  refine ⟨hab', ?_, ?_⟩
  · rintro ⟨hc, hw, hh⟩
    exact rect_and_area_ne_zero_of_contains hc hw hh hab'
  · rintro ⟨hc, hw, hh⟩
    exact rect_and_area_ne_zero_of_contains hc hw hh hab

/-! ### Claim C4 : idempotence of `remove_dup` -/

/-- C4, counterexample.  `remove_dup` is not idempotent: on the input below
its output still contains a contained (zero-area) rectangle, which a second
run removes. -/
theorem remove_dup_not_idempotent_counterexample :
    remove_dup (remove_dup [(⟨2,2,2,2⟩ : Rect), ⟨0,0,10,10⟩, ⟨5,5,0,0⟩])
      ≠ remove_dup [(⟨2,2,2,2⟩ : Rect), ⟨0,0,10,10⟩, ⟨5,5,0,0⟩] := by decide

/-- C4, amended.  `remove_dup` is idempotent on inputs whose rectangles all
have positive width and height (the counterexample to unconditional
idempotence requires a zero-area rectangle). -/
theorem remove_dup_idempotent_of_pos (l : List Rect)
    (hpos : ∀ r ∈ l, 0 < r.width ∧ 0 < r.height) :
    remove_dup (remove_dup l) = remove_dup l := by
  have hp : List.Pairwise (fun a b => (rect_and b a).area = 0) (remove_dup l) :=
    pass2_pairwise (pass1 l)
  have hpos' : ∀ r ∈ remove_dup l, 0 < r.width ∧ 0 < r.height :=
    fun r hr => hpos r (List.Sublist.mem hr (remove_dup_sublist l))
  have hnc : List.Pairwise (fun a b => ¬ containsRect a b ∧ ¬ containsRect b a)
      (remove_dup l) := by
    refine hp.imp_of_mem ?_
    intro a b ha hb hab
    constructor
    · intro hc
      exact rect_and_area_ne_zero_of_contains hc (hpos' b hb).1 (hpos' b hb).2
        (by rw [rect_and_comm]; exact hab)
    · intro hc
      exact rect_and_area_ne_zero_of_contains hc (hpos' a ha).1 (hpos' a ha).2 hab
  show pass2 (pass1 (remove_dup l)) = remove_dup l
  rw [pass1_eq_self hnc, pass2_eq_self hp]

/-- C4, witness for the amended theorem at a concrete input. -/
theorem remove_dup_idempotent_of_pos_witness :
    remove_dup (remove_dup [(⟨0,0,2,2⟩ : Rect), ⟨1,0,2,2⟩, ⟨8,8,1,1⟩])
      = remove_dup [(⟨0,0,2,2⟩ : Rect), ⟨1,0,2,2⟩, ⟨8,8,1,1⟩] :=
  remove_dup_idempotent_of_pos [⟨0,0,2,2⟩, ⟨1,0,2,2⟩, ⟨8,8,1,1⟩] (by decide)

/-! ## The text normalizer `Recognizer::string_processing`

`std::string` is embedded as `List Char`; both passes of the source index the
string they scan (`str[idx]`, `str[idx - 1]`, `str[idx + 1]`), which is
rendered with `List.getD` (the default character is irrelevant: every access
is guarded by the corresponding bounds test, exactly as in the source). -/

/-- The character classes admitted unconditionally by the first pass of
`string_processing`: letters, digits, space, comma, period, `!`, `?`. -/
def allowedChar (c : Char) : Prop :=
  ('a' ≤ c ∧ c ≤ 'z') ∨ ('A' ≤ c ∧ c ≤ 'Z') ∨ ('0' ≤ c ∧ c ≤ '9') ∨
    c = ' ' ∨ c = ',' ∨ c = '.' ∨ c = '!' ∨ c = '?'

instance (c : Char) : Decidable (allowedChar c) :=
  inferInstanceAs (Decidable (('a' ≤ c ∧ c ≤ 'z') ∨ ('A' ≤ c ∧ c ≤ 'Z') ∨
    ('0' ≤ c ∧ c ≤ '9') ∨ c = ' ' ∨ c = ',' ∨ c = '.' ∨ c = '!' ∨ c = '?'))

/-- First pass of `string_processing` (build of `norm1`, lines 281-294),
as a scan over the index `idx` with sufficient fuel: allowed characters are
kept; a newline is kept only when it is neither the first nor the last
character of the ORIGINAL string and neither original neighbour is itself a
newline; everything else is dropped. -/
def norm1Go (s : List Char) : Nat → Nat → List Char
  | 0, _ => []
  | f + 1, idx =>
    if idx < s.length then
      let c := s.getD idx ' '
      if allowedChar c then c :: norm1Go s f (idx + 1)
      else if c = '\n' then
        if idx ≠ 0 ∧ idx ≠ s.length - 1 ∧ s.getD (idx - 1) ' ' ≠ '\n' ∧
            s.getD (idx + 1) ' ' ≠ '\n' then
          c :: norm1Go s f (idx + 1)
        else norm1Go s f (idx + 1)
      else norm1Go s f (idx + 1)
    else []

/-- The intermediate string `norm1` of `string_processing`. -/
def norm1 (s : List Char) : List Char := norm1Go s s.length 0

/-- Second pass of `string_processing` (build of `norm2`, lines 297-307):
a space is kept only when it is neither the first nor the last character of
`norm1` and its immediate predecessor is not a space; all other characters
are copied. -/
def norm2Go (s : List Char) : Nat → Nat → List Char
  | 0, _ => []
  | f + 1, idx =>
    if idx < s.length then
      let c := s.getD idx ' '
      if c = ' ' then
        if idx ≠ 0 ∧ idx ≠ s.length - 1 ∧ s.getD (idx - 1) ' ' ≠ ' ' then
          ' ' :: norm2Go s f (idx + 1)
        else norm2Go s f (idx + 1)
      else c :: norm2Go s f (idx + 1)
    else []

/-- The result string `norm2` of `string_processing`. -/
def norm2 (s : List Char) : List Char := norm2Go s s.length 0

/-- Embedding of `Recognizer::string_processing` (lines 277-310): the two passes in
sequence. -/
def string_processing (s : List Char) : List Char := norm2 (norm1 s)

example : string_processing ("a\n#\nb").toList = ("a\n\nb").toList := by decide

example : string_processing (" \na").toList = ("\na").toList := by decide

example : string_processing ("a \nb").toList = ("a \nb").toList := by decide

example : string_processing ("H3ll0!\n\n\nWorld??  foo").toList
    = ("H3ll0!World?? foo").toList := by decide

theorem getD_of_lt (s : List Char) {idx : Nat} (h : idx < s.length) :
    s.getD idx ' ' = s[idx] := by
  simp [List.getElem?_eq_getElem h]

theorem drop_cons_getD (s : List Char) {idx : Nat} (h : idx < s.length) :
    s.drop idx = s.getD idx ' ' :: s.drop (idx + 1) := by
  rw [List.drop_eq_getElem_cons h, getD_of_lt s h]

/-- Zipper reformulation of the first pass of `string_processing`: the scan
carries the previously read character (`none` at position 0) and looks ahead
at the head of the remaining input.  `norm1Go_eq_zip` proves it equal to the
index-based translation `norm1Go`. -/
def norm1Zip : Option Char → List Char → List Char
  | _, [] => []
  | prev, c :: rest =>
    if allowedChar c then c :: norm1Zip (some c) rest
    else if c = '\n' then
      match prev with
      | some p =>
        match rest with
        | d :: _ =>
          if p ≠ '\n' ∧ d ≠ '\n' then c :: norm1Zip (some c) rest
          else norm1Zip (some c) rest
        | [] => norm1Zip (some c) rest
      | none => norm1Zip (some c) rest
    else norm1Zip (some c) rest

theorem norm1Zip_nil (prev : Option Char) : norm1Zip prev [] = [] := rfl

theorem norm1Zip_cons_allowed (prev : Option Char) {c : Char} (rest : List Char)
    (h : allowedChar c) :
    norm1Zip prev (c :: rest) = c :: norm1Zip (some c) rest := by
  simp only [norm1Zip]
  rw [if_pos h]

theorem norm1Zip_nl_none (rest : List Char) :
    norm1Zip none ('\n' :: rest) = norm1Zip (some '\n') rest := by
  have h1 : ¬ allowedChar '\n' := by decide
  simp [norm1Zip, h1]

theorem norm1Zip_nl_one (p : Char) :
    norm1Zip (some p) ['\n'] = [] := by
  have h1 : ¬ allowedChar '\n' := by decide
  simp [norm1Zip, h1]

theorem norm1Zip_nl_keep {p d : Char} (rest' : List Char) (h : p ≠ '\n' ∧ d ≠ '\n') :
    norm1Zip (some p) ('\n' :: d :: rest') = '\n' :: norm1Zip (some '\n') (d :: rest') := by
  have h1 : ¬ allowedChar '\n' := by decide
  simp [norm1Zip, h1, h.1, h.2]

theorem norm1Zip_nl_skip {p d : Char} (rest' : List Char) (h : ¬(p ≠ '\n' ∧ d ≠ '\n')) :
    norm1Zip (some p) ('\n' :: d :: rest') = norm1Zip (some '\n') (d :: rest') := by
  have h1 : ¬ allowedChar '\n' := by decide
  simp [norm1Zip, h1, h]

/-- The character preceding position `idx` of `s`, if any. -/
def prevC (s : List Char) (idx : Nat) : Option Char :=
  if idx = 0 then none else some (s.getD (idx - 1) ' ')

theorem norm1Go_eq_zip (s : List Char) :
    ∀ f idx, s.length - idx ≤ f →
      norm1Go s f idx = norm1Zip (prevC s idx) (s.drop idx) := by
  intro f
  induction f with
  | zero =>
    intro idx h
    rw [List.drop_eq_nil_of_le (by omega)]
    rfl
  | succ f ih =>
    intro idx h
    by_cases hlt : idx < s.length
    · have hdrop := drop_cons_getD s hlt
      have hih := ih (idx + 1) (by omega)
      have hprev1 : prevC s (idx + 1) = some (s.getD idx ' ') := by
        simp [prevC]
      rw [hdrop]
      by_cases hca : allowedChar (s.getD idx ' ')
      · simp only [norm1Go, if_pos hlt, if_pos hca, norm1Zip]
        rw [hih, hprev1]
      · by_cases hcn : s.getD idx ' ' = '\n'
        · by_cases hidx0 : idx = 0
          · subst hidx0
            have hpc : prevC s 0 = none := rfl
            rw [hpc]
            simp only [norm1Go, if_pos hlt, if_neg hca, if_pos hcn]
            rw [if_neg (by simp)]
            rw [hih, hprev1, hcn, norm1Zip_nl_none]
          · by_cases hlast : idx = s.length - 1
            · have hnil : s.drop (idx + 1) = [] := List.drop_eq_nil_of_le (by omega)
              have hpc : prevC s idx = some (s.getD (idx - 1) ' ') := by
                simp [prevC, hidx0]
              rw [hpc, hnil]
              simp only [norm1Go, if_pos hlt, if_neg hca, if_pos hcn]
              rw [if_neg fun hcontra => hcontra.2.1 hlast]
              rw [hih, hnil, norm1Zip_nil, hcn, norm1Zip_nl_one]
            · have hlt1 : idx + 1 < s.length := by omega
              have hdrop1 := drop_cons_getD s hlt1
              have hpc : prevC s idx = some (s.getD (idx - 1) ' ') := by
                simp [prevC, hidx0]
              rw [hpc, hdrop1]
              simp only [norm1Go, if_pos hlt, if_neg hca, if_pos hcn]
              by_cases hg : s.getD (idx - 1) ' ' ≠ '\n' ∧ s.getD (idx + 1) ' ' ≠ '\n'
              · rw [if_pos ⟨hidx0, hlast, hg.1, hg.2⟩]
                rw [hih, hprev1, hdrop1, hcn, norm1Zip_nl_keep _ hg]
              · rw [if_neg fun hcontra => hg ⟨hcontra.2.2.1, hcontra.2.2.2⟩]
                rw [hih, hprev1, hdrop1, hcn, norm1Zip_nl_skip _ hg]
        · simp only [norm1Go, if_pos hlt, if_neg hca, if_neg hcn, norm1Zip]
          rw [hih, hprev1]
    · rw [List.drop_eq_nil_of_le (not_lt.mp hlt)]
      simp [norm1Go, hlt, norm1Zip]

/-- Every character emitted by the zipper scan comes from the input. -/
theorem norm1Zip_mem :
    ∀ (l : List Char) (prev : Option Char) (c : Char),
      c ∈ norm1Zip prev l → c ∈ l := by
  intro l
  induction l with
  | nil => intro prev c h; simp [norm1Zip] at h
  | cons b rest ih =>
    intro prev c h
    simp only [norm1Zip] at h
    split at h
    · rcases List.mem_cons.mp h with rfl | h
      · exact List.mem_cons_self _ _
      · exact List.mem_cons_of_mem _ (ih _ _ h)
    · split at h
      · split at h
        · split at h
          · split at h
            · rcases List.mem_cons.mp h with rfl | h
              · exact List.mem_cons_self _ _
              · exact List.mem_cons_of_mem _ (ih _ _ h)
            · exact List.mem_cons_of_mem _ (ih _ _ h)
          · exact List.mem_cons_of_mem _ (ih _ _ h)
        · exact List.mem_cons_of_mem _ (ih _ _ h)
      · exact List.mem_cons_of_mem _ (ih _ _ h)

/-- The key structural property of the first pass when every input character
is either allowed or a newline: the output never has two adjacent newlines,
never ends with a newline, and never starts with a newline when the previous
character (if any) was a newline. -/
theorem norm1Zip_newline_props :
    ∀ (l : List Char) (prev : Option Char),
      (∀ c ∈ l, allowedChar c ∨ c = '\n') →
      List.Chain' (fun a b => ¬(a = '\n' ∧ b = '\n')) (norm1Zip prev l)
      ∧ (norm1Zip prev l).getLast? ≠ some '\n'
      ∧ ((prev = none ∨ prev = some '\n') → (norm1Zip prev l).head? ≠ some '\n') := by
  intro l
  induction l with
  | nil => intro prev h; simp [norm1Zip]
  | cons b rest ih =>
    intro prev hchars
    have hrest : ∀ c ∈ rest, allowedChar c ∨ c = '\n' :=
      fun c hc => hchars c (List.mem_cons_of_mem _ hc)
    have hb := hchars b (List.mem_cons_self _ _)
    obtain ⟨ih1, ih2, ih3⟩ := ih (some b) hrest
    by_cases hca : allowedChar b
    · have hbn : b ≠ '\n' := fun he => by
        rw [he] at hca
        exact absurd hca (by decide)
      simp only [norm1Zip, if_pos hca]
      refine ⟨?_, ?_, ?_⟩
      · rw [List.chain'_cons']
        exact ⟨fun y _ hcon => hbn hcon.1, ih1⟩
      · cases hout : norm1Zip (some b) rest with
        | nil => simp [hbn]
        | cons z zs =>
          rw [List.getLast?_cons_cons]
          rw [hout] at ih2
          exact ih2
      · intro _
        simp [hbn]
    · have hcn : b = '\n' := by
        rcases hb with h | h
        · exact absurd h hca
        · exact h
      subst hcn
      cases prev with
      | none =>
        rw [norm1Zip_nl_none]
        exact ⟨ih1, ih2, fun _ => ih3 (Or.inr rfl)⟩
      | some p =>
        cases rest with
        | nil => simp [norm1Zip_nl_one]
        | cons d rest' =>
          by_cases hcond : p ≠ '\n' ∧ d ≠ '\n'
          · rw [norm1Zip_nl_keep _ hcond]
            have hd : allowedChar d := by
              rcases hrest d (List.mem_cons_self _ _) with h | h
              · exact h
              · exact absurd h hcond.2
            have hhead : (norm1Zip (some '\n') (d :: rest')).head? = some d := by
              rw [norm1Zip_cons_allowed _ _ hd]
              rfl
            refine ⟨?_, ?_, ?_⟩
            · rw [List.chain'_cons']
              refine ⟨?_, ih1⟩
              intro y hy hcon
              rw [hhead] at hy
              simp only [Option.mem_def, Option.some.injEq] at hy
              exact hcond.2 (hy.trans hcon.2)
            · have hne : norm1Zip (some '\n') (d :: rest') ≠ [] := by
                rw [norm1Zip_cons_allowed _ _ hd]
                simp
              cases hout : norm1Zip (some '\n') (d :: rest') with
              | nil => exact absurd hout hne
              | cons z zs =>
                rw [List.getLast?_cons_cons]
                rw [hout] at ih2
                exact ih2
            · rintro (h | h)
              · exact absurd h (by simp)
              · simp only [Option.some.injEq] at h
                exact absurd h hcond.1
          · rw [norm1Zip_nl_skip _ hcond]
            exact ⟨ih1, ih2, fun _ => ih3 (Or.inr rfl)⟩

/-- With sufficient fuel, the second pass is the identity on space-free
strings. -/
theorem norm2Go_eq_self (s : List Char) (hns : ∀ c ∈ s, c ≠ ' ') :
    ∀ f idx, s.length - idx ≤ f → norm2Go s f idx = s.drop idx := by
  intro f
  induction f with
  | zero =>
    intro idx h
    rw [List.drop_eq_nil_of_le (by omega)]
    rfl
  | succ f ih =>
    intro idx h
    by_cases hlt : idx < s.length
    · have hc : s.getD idx ' ' ∈ s := by
        rw [getD_of_lt s hlt]
        exact List.getElem_mem hlt
      have hne := hns _ hc
      simp only [norm2Go, if_pos hlt, if_neg hne]
      rw [ih (idx + 1) (by omega), ← drop_cons_getD s hlt]
    · rw [List.drop_eq_nil_of_le (not_lt.mp hlt)]
      simp [norm2Go, hlt]

theorem norm2_eq_self (s : List Char) (hns : ∀ c ∈ s, c ≠ ' ') : norm2 s = s := by
  have := norm2Go_eq_self s hns s.length 0 (by omega)
  simpa [norm2] using this

/-! ### Claim C5 : newline invariants of `string_processing` -/

/-- C5, counterexample.  The newline guards of the first pass consult the
neighbours in the ORIGINAL string, so dropping a disallowed character can
leave two kept newlines adjacent (`"a\n#\nb"` → `"a\n\nb"`), and dropping a
leading space in the second pass can expose a leading newline
(`" \na"` → `"\na"`). -/
theorem string_processing_newline_counterexample :
    string_processing ("a\n#\nb").toList = ("a\n\nb").toList
    ∧ ¬ List.Chain' (fun a b => ¬(a = '\n' ∧ b = '\n'))
        (string_processing ("a\n#\nb").toList)
    ∧ string_processing (" \na").toList = ("\na").toList
    ∧ (string_processing (" \na").toList).head? = some '\n' := by
  refine ⟨by decide, ?_, by decide, by decide⟩
  intro hch
  have he : string_processing ("a\n#\nb").toList
      = 'a' :: '\n' :: '\n' :: 'b' :: [] := by decide
  rw [he, List.chain'_cons, List.chain'_cons] at hch
  exact hch.2.1 ⟨rfl, rfl⟩

/-- C5, amended.  For input strings whose characters are all either
allowed-and-not-space or a newline (no disallowed characters and no spaces),
the output of `string_processing` contains no newline adjacent to another
newline and neither begins nor ends with a newline. -/
theorem string_processing_newline_props (s : List Char)
    (h : ∀ c ∈ s, (allowedChar c ∧ c ≠ ' ') ∨ c = '\n') :
    List.Chain' (fun a b => ¬(a = '\n' ∧ b = '\n')) (string_processing s)
    ∧ (string_processing s).head? ≠ some '\n'
    ∧ (string_processing s).getLast? ≠ some '\n' := by
  have hz : norm1 s = norm1Zip none s := by
    have hgo := norm1Go_eq_zip s s.length 0 (by omega)
    simpa [norm1, prevC] using hgo
  have hchars : ∀ c ∈ s, allowedChar c ∨ c = '\n' :=
    fun c hc => (h c hc).imp And.left id
  have hnospace : ∀ c ∈ norm1 s, c ≠ ' ' := by
    intro c hc
    rw [hz] at hc
    rcases h c (norm1Zip_mem s none c hc) with ⟨_, hne⟩ | rfl
    · exact hne
    · decide
  have e : string_processing s = norm1Zip none s := by
    unfold string_processing
    rw [norm2_eq_self (norm1 s) hnospace, hz]
  obtain ⟨p1, p2, p3⟩ := norm1Zip_newline_props s none hchars
  rw [e]
  exact ⟨p1, p3 (Or.inl rfl), p2⟩

/-- C5, witness for the amended theorem at a concrete input. -/
theorem string_processing_newline_props_witness :
    List.Chain' (fun a b => ¬(a = '\n' ∧ b = '\n'))
      (string_processing ("ab\ncd").toList)
    ∧ (string_processing ("ab\ncd").toList).head? ≠ some '\n'
    ∧ (string_processing ("ab\ncd").toList).getLast? ≠ some '\n' :=
  string_processing_newline_props ("ab\ncd").toList (by decide)

/-! ### Claim C8 : concrete behaviour of the character filter -/

/-- C8, confirmed.  `string_processing` on `"H3ll0!\n\n\nWorld??  foo"` keeps
the allowed letters, digits and punctuation, removes the triple newline
entirely (no interior newline of the run is isolated), and collapses the
double space to a single space, returning exactly `"H3ll0!World?? foo"`. -/
theorem string_processing_example_eq :
    string_processing ("H3ll0!\n\n\nWorld??  foo").toList
      = ("H3ll0!World?? foo").toList := by decide

/-! ## The word deduplicator `Recognizer::normalize_result` (lines 315-348)

The source first concatenates every fragment followed by a single space, then
tokenizes with a do-while loop (`end = str.find(' ', start)`, `npos`
replaced by the length), keeps the first occurrence of each token, rejoins
every kept token followed by a single space, and finally evaluates
`str.substr(0, str.length() - 2)`.  The subtraction is on `size_t`, so for
result lengths 0 and 1 it wraps around modulo `2 ^ 64` and `substr` then
clamps the count to the whole string. -/

/-- Embedding of `str.find(' ', start)` with `npos` already replaced by the length, as the
source does immediately after the call. -/
def findSpaceFrom (s : List Char) (start : Nat) : Nat :=
  start + List.findIdx (fun c => c == ' ') (s.drop start)

/-- The do-while tokenizing loop of `normalize_result`, with fuel.  The body
always runs at least once; each iteration extracts
`str.substr(start, end - start)`, records it if unseen, and continues from
`end + 1` while that is `< str.length()`. -/
def tokGo (s : List Char) : Nat → Nat → List (List Char) → List (List Char)
  | 0, _, words => words
  | f + 1, start, words =>
    let e := findSpaceFrom s start
    let tmp := (s.drop start).take (e - start)
    let words' := if tmp ∈ words then words else words ++ [tmp]
    if e + 1 < s.length then tokGo s f (e + 1) words' else words'

/-- Embedding of `Recognizer::normalize_result`. -/
def normalize_result (text : List (List Char)) : List Char :=
  let str := text.foldl (fun acc s => acc ++ s ++ [' ']) []
  let words := tokGo str (str.length + 1) 0 []
  let out := words.foldl (fun acc w => acc ++ w ++ [' ']) []
  out.take ((out.length + (2 ^ 64 - 2)) % 2 ^ 64)

example : normalize_result [("cat dog cat bird dog").toList]
    = ("cat dog bir").toList := by decide

example : normalize_result [] = [' '] := by decide

example : normalize_result [("  ").toList] = [' '] := by decide

example : normalize_result [("cat dog").toList, ("cat bird dog").toList]
    = ("cat dog bir").toList := by decide

/-! ### Claim C6 : word deduplication on `"cat dog cat bird dog"` -/

/-- C6.  The tokenizer does keep first occurrences in first-seen order
(`cat`, `dog`, `bird`), but the final `str.substr(0, str.length() - 2)`
removes the trailing separator AND the last character of the last kept
token, so the function returns `"cat dog bir"`, not `"cat dog bird"`. -/
theorem normalize_result_truncates_last_token :
    normalize_result [("cat dog cat bird dog").toList] = ("cat dog bir").toList
    ∧ normalize_result [("cat dog cat bird dog").toList]
        ≠ ("cat dog bird").toList := by decide

/-! ### Claim C7 : degenerate inputs of the word deduplicator -/

/-- C7.  On an empty `Text` the do-while body still runs once, records the
empty token, rejoins it as `" "`, and `str.length() - 2` underflows on
`size_t` so `substr` keeps the whole string: the result is `" "`, not the
empty string.  A separator-only fragment gives `" "` as well, and a final
token with no trailing delimiter is processed (losing its last character to
the same `substr`). -/
theorem normalize_result_degenerate_eval :
    normalize_result [] = [' ']
    ∧ normalize_result [] ≠ []
    ∧ normalize_result [("  ").toList] = [' ']
    ∧ normalize_result [("cat dog").toList] = ("cat do").toList := by decide

/-! ## The region materializer `Recognizer::create_text_areas` (lines 202-226) -/

/-- The data of a `cv::Mat` needed here: the `empty()` flag and the size.
The pixel contents play no role in any claim. -/
structure MatImg where
  isEmpty : Bool
  width : Int
  height : Int
deriving DecidableEq, Repr

/-- The image area `image.size().area()` = `width * height`. -/
def matArea (m : MatImg) : Int := m.width * m.height

/-- A prepared region, recording its provenance: either the whole image
converted to grayscale (no binarization), or a crop at a rectangle that is
grayscaled and Otsu-binarized. -/
inductive PreparedRegion
  | grayWhole (img : MatImg)
  | binarizedCrop (img : MatImg) (r : Rect)
deriving DecidableEq, Repr

/-- The accumulation `for (r : boxes) sum_area += r.area();`. -/
def sumAreas (boxes : List Rect) : Int :=
  boxes.foldl (fun acc r => acc + r.area) 0

/-- Embedding of `Recognizer::create_text_areas`: whole-image grayscale when
`sum_area >= image.size().area() / 2` (C++ `int` division truncates toward
zero, `Int.tdiv`), otherwise one binarized crop per rectangle. -/
def create_text_areas (image : MatImg) (boxes : List Rect) : List PreparedRegion :=
  if sumAreas boxes ≥ Int.tdiv (matArea image) 2 then
    [PreparedRegion.grayWhole image]
  else
    boxes.map (PreparedRegion.binarizedCrop image)

theorem map_crop_ne_gray (img : MatImg) (boxes : List Rect) :
    boxes.map (PreparedRegion.binarizedCrop img) ≠ [PreparedRegion.grayWhole img] := by
  cases boxes with
  | nil => simp
  | cons b bs => simp

/-! ### Claim C9 : the coverage heuristic's boundary -/

/-- C9, counterexample.  On a 3×3 image (area 9) with a single 2×2 rectangle
(area 4), the summed area is strictly less than half the image area
(8 < 9), yet the whole-image branch is taken, because the comparison is
against the truncated integer quotient `9 / 2 = 4`: the claim's "otherwise
one cropped region per rectangle" fails for odd image areas. -/
theorem create_text_areas_half_counterexample :
    2 * sumAreas [(⟨0,0,2,2⟩ : Rect)] < matArea ⟨false, 3, 3⟩
    ∧ create_text_areas ⟨false, 3, 3⟩ [⟨0,0,2,2⟩]
        = [PreparedRegion.grayWhole ⟨false, 3, 3⟩]
    ∧ create_text_areas ⟨false, 3, 3⟩ [⟨0,0,2,2⟩]
        ≠ [(⟨0,0,2,2⟩ : Rect)].map (PreparedRegion.binarizedCrop ⟨false, 3, 3⟩) := by
  decide

/-- C9, amended.  The whole-image branch is taken exactly when the summed
rectangle area is at least the truncated integer quotient of the image area
by 2 (so in particular when it equals exactly half of an even image area,
the boundary being inclusive); the per-rectangle branch is taken exactly
otherwise. -/
theorem create_text_areas_branch (img : MatImg) (boxes : List Rect) :
    (create_text_areas img boxes = [PreparedRegion.grayWhole img]
      ↔ sumAreas boxes ≥ Int.tdiv (matArea img) 2)
    ∧ (create_text_areas img boxes = boxes.map (PreparedRegion.binarizedCrop img)
      ↔ sumAreas boxes < Int.tdiv (matArea img) 2) := by
  by_cases hge : sumAreas boxes ≥ Int.tdiv (matArea img) 2
  · have he : create_text_areas img boxes = [PreparedRegion.grayWhole img] := by
      simp [create_text_areas, if_pos hge]
    refine ⟨⟨fun _ => hge, fun _ => he⟩, ?_, ?_⟩
    · intro hmap
      exact absurd (he.symm.trans hmap).symm (map_crop_ne_gray img boxes)
    · intro hlt
      exact absurd hlt (not_lt.mpr hge)
  · have hlt : sumAreas boxes < Int.tdiv (matArea img) 2 := not_le.mp hge
    have he : create_text_areas img boxes
        = boxes.map (PreparedRegion.binarizedCrop img) := by
      simp [create_text_areas, if_neg hge]
    refine ⟨⟨fun hg => ?_, fun hsum => absurd hsum hge⟩, fun _ => hlt, fun _ => he⟩
    exact absurd (he.symm.trans hg) (map_crop_ne_gray img boxes)

/-! ## The public entry points `Recognizer::get_text` (lines 43-74)

Both overloads are embedded with the external collaborators as parameters:
`imread` models `cv::imread` (which returns an empty matrix on an
undecodable file), `find_rects` models `find_text_rects` (whose body is
entirely OpenCV detector calls and may throw), and `analyse` models
`alphabet_analisis` (the tesseract stage, which may also throw). -/

/-- The `RecException` thrown by the entry points. -/
structure RecException where
  msg : String
deriving DecidableEq, Repr

/-- Embedding of `Recognizer::get_text(const cv::Mat&)`: throw on an empty image, detect,
short-circuit an empty detection result to the empty string, otherwise
deduplicate, materialize and recognize. -/
def get_text_mat (find_rects : MatImg → Except RecException (List Rect))
    (analyse : List PreparedRegion → Except RecException (List Char))
    (image : MatImg) : Except RecException (List Char) :=
  if image.isEmpty then Except.error ⟨"failed to load image"⟩
  else
    match find_rects image with
    | Except.error e => Except.error e
    | Except.ok boxes_groups =>
      if boxes_groups.length = 0 then Except.ok []
      else analyse (create_text_areas image (remove_dup boxes_groups))

/-- Embedding of `Recognizer::get_text(const std::string&)`: throw on an empty file name,
otherwise decode and delegate. -/
def get_text_file (imread : List Char → MatImg)
    (find_rects : MatImg → Except RecException (List Rect))
    (analyse : List PreparedRegion → Except RecException (List Char))
    (file : List Char) : Except RecException (List Char) :=
  if file = [] then Except.error ⟨"bad file name"⟩
  else get_text_mat find_rects analyse (imread file)

/-! ### Claim C10 : error handling of the entry points -/

/-- C10, confirmed.  Whatever the collaborators do: an empty file name fails
with the typed `RecException "bad file name"`; an empty (or undecodable,
hence empty) image fails with `RecException "failed to load image"` before
the detector, deduplicator or recognizer can contribute; and a detector
returning zero candidate rectangles is not an error — the call returns the
empty string. -/
theorem get_text_error_handling
    (imread : List Char → MatImg)
    (find_rects : MatImg → Except RecException (List Rect))
    (analyse : List PreparedRegion → Except RecException (List Char))
    (image : MatImg) :
    get_text_file imread find_rects analyse [] = Except.error ⟨"bad file name"⟩
    ∧ (image.isEmpty = true →
        get_text_mat find_rects analyse image = Except.error ⟨"failed to load image"⟩)
    ∧ (image.isEmpty = false → find_rects image = Except.ok [] →
        get_text_mat find_rects analyse image = Except.ok []) := by
  refine ⟨?_, ?_, ?_⟩
  · simp [get_text_file]
  · intro h
    simp [get_text_mat, h]
  · intro h hdet
    simp [get_text_mat, h, hdet]

/-- C10, witness at concrete collaborators and images. -/
theorem get_text_error_handling_witness :
    get_text_file (fun _ => ⟨true, 0, 0⟩) (fun _ => Except.ok [])
        (fun _ => Except.ok []) [] = Except.error ⟨"bad file name"⟩
    ∧ get_text_mat (fun _ => Except.ok []) (fun _ => Except.ok []) ⟨true, 0, 0⟩
        = Except.error ⟨"failed to load image"⟩
    ∧ get_text_mat (fun _ => Except.ok []) (fun _ => Except.ok []) ⟨false, 3, 3⟩
        = Except.ok [] :=
  ⟨(get_text_error_handling (fun _ => ⟨true, 0, 0⟩) (fun _ => Except.ok [])
      (fun _ => Except.ok []) ⟨true, 0, 0⟩).1,
   (get_text_error_handling (fun _ => ⟨true, 0, 0⟩) (fun _ => Except.ok [])
      (fun _ => Except.ok []) ⟨true, 0, 0⟩).2.1 rfl,
   (get_text_error_handling (fun _ => ⟨true, 0, 0⟩) (fun _ => Except.ok [])
      (fun _ => Except.ok []) ⟨false, 3, 3⟩).2.2 rfl rfl⟩

example : remove_dup [⟨0,0,2,2⟩, ⟨1,0,2,2⟩] = [⟨1,0,2,2⟩] := by decide

example : pass1 [⟨2,2,2,2⟩, ⟨0,0,10,10⟩, ⟨5,5,0,0⟩] = [⟨0,0,10,10⟩, ⟨5,5,0,0⟩] := by decide

example : pass1Spec [⟨2,2,2,2⟩, ⟨0,0,10,10⟩, ⟨5,5,0,0⟩] = [⟨0,0,10,10⟩] := by decide

example : remove_dup [⟨2,2,2,2⟩, ⟨0,0,10,10⟩, ⟨5,5,0,0⟩] = [⟨0,0,10,10⟩, ⟨5,5,0,0⟩] := by decide

example : remove_dup (remove_dup [⟨2,2,2,2⟩, ⟨0,0,10,10⟩, ⟨5,5,0,0⟩]) = [⟨0,0,10,10⟩] := by decide
